import Mathlib

/-!
Verification of `bond_default_analysis.py` (the q-alpha bond default model).

The Python source is embedded over the real numbers: numpy float
arithmetic becomes exact real arithmetic, `**` with a real exponent is
`Real.rpow`, numpy arrays of per-path values become `List ℝ`, and the
stream of standard-normal draws is an explicit function parameter.
-/

namespace BondDefault

/-- Embedding of `closed_form_price` (bond_default_analysis.py, lines 98-116).
`gamma_frac` squares with a Python integer exponent (`** 2`), while
`omega ** 2.0` on line 114 carries a float exponent and is embedded as
`Real.rpow`; both are exact squares over the reals. -/
noncomputable def closed_form_price (omega t q : ℝ) : ℝ :=
  let gamma_top := Real.Gamma (1 / (q - 1) - 0.5)
  let gamma_bottom := Real.Gamma (1 / (q - 1))
  let gamma_frac := (gamma_top / gamma_bottom) ^ 2
  let adjusted_q := Real.pi / (q - 1) * gamma_frac
  let rhs1 := (t * (2 - q) * (3 - q)) ^ (-2 / (3 - q))
  let beta_value := adjusted_q ^ ((1 - q) / (3 - q)) * rhs1
  let zeta_value := (t * adjusted_q * (2 - q) * (3 - q)) ^ (1 / (3 - q))
  let rhs2 := (1 + omega ^ (2.0 : ℝ) * beta_value * (q - 1)) ^ (-1 / (q - 1))
  1.0 / zeta_value * rhs2

/-- The five-step closed-form kernel exactly as the specification (§4.1)
words it, with the specification's names, for comparison with the
implementation's `closed_form_price`. -/
noncomputable def kernelSpec (noise_accum elapsed_time q : ℝ) : ℝ :=
  let gamma_ratio := (Real.Gamma (1 / (q - 1) - 0.5) / Real.Gamma (1 / (q - 1))) ^ 2
  let normalizing_q := Real.pi / (q - 1) * gamma_ratio
  let beta := normalizing_q ^ ((1 - q) / (3 - q)) *
    (elapsed_time * (2 - q) * (3 - q)) ^ (-2 / (3 - q))
  let zeta := (elapsed_time * normalizing_q * (2 - q) * (3 - q)) ^ (1 / (3 - q))
  1 / zeta * (1 + noise_accum ^ 2 * beta * (q - 1)) ^ (-1 / (q - 1))

theorem rpow_float_two (x : ℝ) : x ^ (2.0 : ℝ) = x ^ (2 : ℕ) := by
  rw [show (2.0 : ℝ) = (2 : ℝ) by norm_num, Real.rpow_two]

/-- C1: for every noise_accum, every elapsed_time > 0, and every kurtosis q
with q > 1, q ≠ 2, q ≠ 3, `closed_form_price` returns exactly the value of
the specification's five-step closed-form algorithm (gamma_ratio,
normalizing_q, beta, zeta, kernel_value). -/
theorem c1_closed_form_price_matches_spec (omega t q : ℝ)
    (ht : 0 < t) (hq1 : 1 < q) (hq2 : q ≠ 2) (hq3 : q ≠ 3) :
    closed_form_price omega t q = kernelSpec omega t q := by
  simp only [closed_form_price, kernelSpec, rpow_float_two]
  norm_num

/-- C1 witness at omega = 0, elapsed_time = 1, q = 3/2. -/
theorem c1_closed_form_price_matches_spec_witness :
    0 < (1 : ℝ) ∧ 1 < (3 / 2 : ℝ) ∧ (3 / 2 : ℝ) ≠ 2 ∧ (3 / 2 : ℝ) ≠ 3 ∧
      closed_form_price 0 1 (3 / 2) = kernelSpec 0 1 (3 / 2) :=
  ⟨by norm_num, by norm_num, by norm_num, by norm_num,
    c1_closed_form_price_matches_spec 0 1 (3 / 2)
      (by norm_num) (by norm_num) (by norm_num) (by norm_num)⟩

/-- C10: the kernel is an even function of the accumulated noise: for every
elapsed_time > 0 and every kurtosis q in the domain (q > 1, q ≠ 3),
`closed_form_price omega t q = closed_form_price (-omega) t q`, because the
noise enters the formula only through its square. -/
theorem c10_closed_form_price_even (omega t q : ℝ)
    (ht : 0 < t) (hq1 : 1 < q) (hq3 : q ≠ 3) :
    closed_form_price omega t q = closed_form_price (-omega) t q := by
  simp only [closed_form_price, rpow_float_two, neg_sq]

/-- C10 witness at omega = 1, elapsed_time = 1, q = 3/2. -/
theorem c10_closed_form_price_even_witness :
    0 < (1 : ℝ) ∧ 1 < (3 / 2 : ℝ) ∧ (3 / 2 : ℝ) ≠ 3 ∧
      closed_form_price 1 1 (3 / 2) = closed_form_price (-1) 1 (3 / 2) :=
  ⟨by norm_num, by norm_num, by norm_num,
    c10_closed_form_price_even 1 1 (3 / 2) (by norm_num) (by norm_num)
      (by norm_num)⟩

/-- The per-path state of the Monte-Carlo population inside `q_alpha`
(bond_default_analysis.py, lines 44-96): the live price per path
(`post_prices` / the current row of `pre_prices`), the accumulated noise per
path (`omega`), and the running defaulted-path counter (`num_defaults`).
Earlier rows of `pre_prices` are written (line 79) but never read again, so
they carry no observable state and are not modelled. -/
structure SimState where
  prices : List ℝ
  omega : List ℝ
  numDefaults : ℕ

/-- One day of the simulation loop before default removal
(bond_default_analysis.py, lines 68-80): the kernel evaluation, the scalar
`sigma_factor`, the per-path scaled shocks (`np.random.randn(npaths,1)`
modelled by one draw `z i` per live path), the yield drift, and the
volatility increment. Returns the updated prices zipped with the updated
noise accumulators, index-aligned per path. -/
noncomputable def updateStage (p y q alpha sigma dt tk : ℝ) (z : ℕ → ℝ)
    (s : SimState) : List (ℝ × ℝ) :=
  let updated_price := s.omega.map fun w => closed_form_price w tk q
  let sigma_factor := sigma * tk ^ ((1 - q) / (2 * (3 - q)))
  let adj_random := (List.range s.prices.length).map fun i => z i * dt ^ (0.5 : ℝ)
  let drifted := s.prices.map fun x => x + y * dt * x
  let vol_lhs := drifted.map fun x => sigma_factor * p ^ (1 - alpha) * x ^ alpha
  let vol_rhs := List.zipWith (fun u sh => u ^ ((1 - q) / 2) * sh) updated_price adj_random
  let newPrices := List.zipWith (fun x v => x + v) drifted
    (List.zipWith (fun a b => a * b) vol_lhs vol_rhs)
  let newOmega := List.zipWith (fun w v => w + v) s.omega vol_rhs
  newPrices.zip newOmega

/-- A path survives the default check of line 83 exactly when its updated
price is not strictly below the threshold `r` (the recovery-implied floor).
Over the reals `np.nonzero(prices < r)` marks precisely the strictly-below
entries. -/
noncomputable def defaultPred (thr : ℝ) : ℝ × ℝ → Bool :=
  fun pr => !decide (pr.1 < thr)

/-- One full day of the loop body (bond_default_analysis.py, lines 68-92):
the update stage followed by simultaneous removal of every defaulted path
from both parallel arrays (lines 83-89) and the counter increment. -/
noncomputable def dayStep (p y q alpha sigma dt thr tk : ℝ) (z : ℕ → ℝ)
    (s : SimState) : SimState :=
  let paired := updateStage p y q alpha sigma dt tk z s
  let kept := paired.filter (defaultPred thr)
  { prices := kept.map Prod.fst
    omega := kept.map Prod.snd
    numDefaults := s.numDefaults + (paired.length - kept.length) }

/-- The day loop of lines 67-92: starting at day index `k`, run `n` more
days, feeding day `i` the elapsed time `tgrid i` and the draws `z i`. -/
noncomputable def runDays (p y q alpha sigma dt thr : ℝ) (tgrid : ℕ → ℝ)
    (z : ℕ → ℕ → ℝ) : ℕ → ℕ → SimState → SimState
  | _, 0, s => s
  | k, n + 1, s =>
    runDays p y q alpha sigma dt thr tgrid z (k + 1) n
      (dayStep p y q alpha sigma dt thr (tgrid k) (z k) s)

/-- Initial population (lines 47-65): 1000 paths, every price at the
initial price `p`, every noise accumulator at 0, no defaults yet. -/
def initState (p : ℝ) : SimState :=
  { prices := List.replicate 1000 p
    omega := List.replicate 1000 0
    numDefaults := 0 }

/-- Entry `k` (0-based) of the elapsed-time grid `np.arange(dt, t + 1, dt)`
of line 66: `dt + k * dt`. -/
noncomputable def tgridEntry (dt : ℝ) (k : ℕ) : ℝ := dt + (k : ℝ) * dt

/-- Number of entries of `np.arange(dt, t + 1, dt)` over exact reals:
the count of grid points `dt + k * dt` strictly below `t + 1`. -/
noncomputable def tgridLen (t : ℕ) (dt : ℝ) : ℕ :=
  Nat.ceil (((t : ℝ) + 1 - dt) / dt)

/-- The timestep `dt = t / days` with `days = 365 * t` (lines 51-53). -/
noncomputable def simDt (t : ℕ) : ℝ := (t : ℝ) / ((365 * t : ℕ) : ℝ)

/-- The population state after the first `n` days of `q_alpha` on horizon
`t`, with threshold `r * p` (line 50) and the arange time grid. -/
noncomputable def qAlphaState (p y r q alpha sigma : ℝ) (t : ℕ)
    (z : ℕ → ℕ → ℝ) (n : ℕ) : SimState :=
  runDays p y q alpha sigma (simDt t) (r * p) (tgridEntry (simDt t)) z 0 n
    (initState p)

/-- Embedding of `q_alpha` (bond_default_analysis.py, lines 6-96): run the
full `days = 365 * t` day loop from the initial population and return
`num_defaults / npaths_initial` with `npaths_initial = 1000`. -/
noncomputable def q_alpha (p y r q alpha sigma : ℝ) (t : ℕ)
    (z : ℕ → ℕ → ℝ) : ℝ :=
  ((qAlphaState p y r q alpha sigma t z (365 * t)).numDefaults : ℝ) / 1000

theorem dayStep_prices (p y q alpha sigma dt thr tk : ℝ) (z : ℕ → ℝ)
    (s : SimState) :
    (dayStep p y q alpha sigma dt thr tk z s).prices =
      ((updateStage p y q alpha sigma dt tk z s).filter (defaultPred thr)).map
        Prod.fst := rfl

theorem dayStep_omega (p y q alpha sigma dt thr tk : ℝ) (z : ℕ → ℝ)
    (s : SimState) :
    (dayStep p y q alpha sigma dt thr tk z s).omega =
      ((updateStage p y q alpha sigma dt tk z s).filter (defaultPred thr)).map
        Prod.snd := rfl

theorem dayStep_numDefaults (p y q alpha sigma dt thr tk : ℝ) (z : ℕ → ℝ)
    (s : SimState) :
    (dayStep p y q alpha sigma dt thr tk z s).numDefaults =
      s.numDefaults + ((updateStage p y q alpha sigma dt tk z s).length -
        ((updateStage p y q alpha sigma dt tk z s).filter
          (defaultPred thr)).length) := rfl

theorem length_updateStage (p y q alpha sigma dt tk : ℝ) (z : ℕ → ℝ)
    (s : SimState) :
    (updateStage p y q alpha sigma dt tk z s).length =
      min s.prices.length s.omega.length := by
  simp only [updateStage, List.length_zip, List.length_zipWith,
    List.length_map, List.length_range]
  omega

theorem dayStep_invariant (p y q alpha sigma dt thr tk : ℝ) (z : ℕ → ℝ)
    (s : SimState) (h : s.prices.length = s.omega.length) :
    (dayStep p y q alpha sigma dt thr tk z s).prices.length =
      (dayStep p y q alpha sigma dt thr tk z s).omega.length ∧
    (dayStep p y q alpha sigma dt thr tk z s).numDefaults +
      (dayStep p y q alpha sigma dt thr tk z s).prices.length =
      s.numDefaults + s.prices.length := by
  have hlen : (updateStage p y q alpha sigma dt tk z s).length =
      s.prices.length := by
    rw [length_updateStage, ← h, min_self]
  have hk : ((updateStage p y q alpha sigma dt tk z s).filter
      (defaultPred thr)).length ≤
      (updateStage p y q alpha sigma dt tk z s).length :=
    List.length_filter_le _ _
  refine ⟨by rw [dayStep_prices, dayStep_omega, List.length_map,
    List.length_map], ?_⟩
  rw [dayStep_numDefaults, dayStep_prices, List.length_map]
  omega

theorem runDays_invariant (p y q alpha sigma dt thr : ℝ) (tgrid : ℕ → ℝ)
    (z : ℕ → ℕ → ℝ) (k n : ℕ) (s : SimState)
    (h : s.prices.length = s.omega.length) :
    (runDays p y q alpha sigma dt thr tgrid z k n s).prices.length =
      (runDays p y q alpha sigma dt thr tgrid z k n s).omega.length ∧
    (runDays p y q alpha sigma dt thr tgrid z k n s).numDefaults +
      (runDays p y q alpha sigma dt thr tgrid z k n s).prices.length =
      s.numDefaults + s.prices.length := by
  induction n generalizing k s with
  | zero => exact ⟨h, rfl⟩
  | succ n ih =>
    obtain ⟨h1, h2⟩ :=
      dayStep_invariant p y q alpha sigma dt thr (tgrid k) (z k) s h
    obtain ⟨g1, g2⟩ :=
      ih (k + 1) (dayStep p y q alpha sigma dt thr (tgrid k) (z k) s) h1
    simp only [runDays]
    exact ⟨g1, by omega⟩

theorem initState_invariant (p : ℝ) :
    (initState p).prices.length = (initState p).omega.length ∧
    (initState p).prices.length = 1000 ∧ (initState p).numDefaults = 0 := by
  refine ⟨?_, ?_, rfl⟩
  · show (List.replicate 1000 p).length = (List.replicate 1000 (0 : ℝ)).length
    rw [List.length_replicate, List.length_replicate]
  · show (List.replicate 1000 p).length = 1000
    rw [List.length_replicate]

/-- Shared bound: whatever the parameters and random draws, the final
defaulted count is at most 1000 and the returned ratio lies in [0, 1]. -/
theorem q_alpha_bounds (p y r q alpha sigma : ℝ) (t : ℕ) (z : ℕ → ℕ → ℝ) :
    (qAlphaState p y r q alpha sigma t z (365 * t)).numDefaults ≤ 1000 ∧
    0 ≤ q_alpha p y r q alpha sigma t z ∧ q_alpha p y r q alpha sigma t z ≤ 1 := by
  have h := runDays_invariant p y q alpha sigma (simDt t) (r * p)
    (tgridEntry (simDt t)) z 0 (365 * t) (initState p)
    (initState_invariant p).1
  have hle : (qAlphaState p y r q alpha sigma t z (365 * t)).numDefaults ≤ 1000 := by
    have h2 := h.2
    have h3 := (initState_invariant p).2.1
    have h4 := (initState_invariant p).2.2
    unfold qAlphaState
    omega
  refine ⟨hle, ?_, ?_⟩
  · unfold q_alpha
    positivity
  · unfold q_alpha
    rw [div_le_one (by norm_num)]
    exact_mod_cast hle

/-- C2: for every call to `q_alpha` with valid parameters (kurtosis q > 1,
positive initial price and sigma, horizon ≥ 1) and any draws, the final
defaulted-path count satisfies 0 ≤ count ≤ 1000 = initial_path_count, so
the returned probability of default lies in [0, 1]. -/
theorem c2_default_probability_in_unit_interval (p y r q alpha sigma : ℝ)
    (t : ℕ) (z : ℕ → ℕ → ℝ) (hq : 1 < q) (hp : 0 < p) (hsigma : 0 < sigma)
    (ht : 1 ≤ t) :
    (qAlphaState p y r q alpha sigma t z (365 * t)).numDefaults ≤ 1000 ∧
    0 ≤ q_alpha p y r q alpha sigma t z ∧
    q_alpha p y r q alpha sigma t z ≤ 1 :=
  q_alpha_bounds p y r q alpha sigma t z

/-- C2 witness at p = 1, y = 0, r = 0, q = 2, alpha = 1, sigma = 1, t = 1,
zero draws. -/
theorem c2_default_probability_in_unit_interval_witness :
    1 < (2 : ℝ) ∧ 0 < (1 : ℝ) ∧ 1 ≤ 1 ∧
    (0 ≤ q_alpha 1 0 0 2 1 1 1 (fun _ _ => 0) ∧
      q_alpha 1 0 0 2 1 1 1 (fun _ _ => 0) ≤ 1) :=
  ⟨by norm_num, by norm_num, le_refl 1,
    (c2_default_probability_in_unit_interval 1 0 0 2 1 1 1 (fun _ _ => 0)
      (by norm_num) (by norm_num) (by norm_num) (le_refl 1)).2⟩

/-- C3: after every per-day default-removal compaction of `q_alpha`, the
price list and the noise-accumulator list have the same length (they are
kept index-aligned: both are projections of one filtered list of pairs),
and that common length plus the defaulted count so far equals the initial
path count 1000 (the invariant npaths + num_defaults = npaths_initial). -/
theorem c3_population_invariant (p y r q alpha sigma : ℝ) (t : ℕ)
    (z : ℕ → ℕ → ℝ) (n : ℕ) :
    (qAlphaState p y r q alpha sigma t z n).prices.length =
      (qAlphaState p y r q alpha sigma t z n).omega.length ∧
    (qAlphaState p y r q alpha sigma t z n).prices.length +
      (qAlphaState p y r q alpha sigma t z n).numDefaults = 1000 := by
  have h := runDays_invariant p y q alpha sigma (simDt t) (r * p)
    (tgridEntry (simDt t)) z 0 n (initState p) (initState_invariant p).1
  have h3 := (initState_invariant p).2.1
  have h4 := (initState_invariant p).2.2
  refine ⟨h.1, ?_⟩
  have h2 := h.2
  unfold qAlphaState
  omega

/-- C9: at the end of any simulated day, after the default-removal step,
every price remaining in the surviving population is at least the default
threshold: exactly the strictly-below-threshold paths were removed. -/
theorem c9_survivors_at_least_threshold (p y q alpha sigma dt thr tk : ℝ)
    (z : ℕ → ℝ) (s : SimState) (x : ℝ)
    (hx : x ∈ (dayStep p y q alpha sigma dt thr tk z s).prices) : thr ≤ x := by
  rw [dayStep_prices, List.mem_map] at hx
  obtain ⟨pr, hpr, rfl⟩ := hx
  rw [List.mem_filter] at hpr
  have h2 := hpr.2
  simp only [defaultPred, Bool.not_eq_true', decide_eq_false_iff_not] at h2
  exact not_lt.mp h2

theorem c9_concrete_mem :
    (1 : ℝ) ∈ (dayStep 1 0 2 1 1 1 0 1 (fun _ => 0) ⟨[1], [0], 0⟩).prices := by
  have hpred : defaultPred (0 : ℝ) ((1 : ℝ), (0 : ℝ)) = true := by
    simp only [defaultPred, Bool.not_eq_true', decide_eq_false_iff_not]
    norm_num
  have hupd : updateStage 1 0 2 1 1 1 1 (fun _ => 0) ⟨[1], [0], 0⟩ =
      [((1 : ℝ), (0 : ℝ))] := by
    norm_num [updateStage, show List.range 1 = [0] from rfl]
  rw [dayStep_prices, hupd, List.filter_cons, hpred]
  simp

/-- C9 witness: a concrete surviving price, at least the threshold 0. -/
theorem c9_survivors_at_least_threshold_witness :
    (1 : ℝ) ∈ (dayStep 1 0 2 1 1 1 0 1 (fun _ => 0) ⟨[1], [0], 0⟩).prices ∧
    (0 : ℝ) ≤ 1 :=
  ⟨c9_concrete_mem,
    c9_survivors_at_least_threshold 1 0 2 1 1 1 0 1 (fun _ => 0) ⟨[1], [0], 0⟩
      1 c9_concrete_mem⟩

theorem simState_eq (s1 s2 : SimState) (h1 : s1.prices = s2.prices)
    (h2 : s1.omega = s2.omega) (h3 : s1.numDefaults = s2.numDefaults) :
    s1 = s2 := by
  cases s1
  cases s2
  simp_all

theorem map_const_eq_replicate {α β : Type} (l : List α) (c : β) :
    l.map (fun _ => c) = List.replicate l.length c := by
  induction l with
  | nil => rfl
  | cons a l ih => simp [List.replicate_succ, ih]

theorem zipWith_replicate_same {α β γ : Type} (f : α → β → γ) (n : ℕ)
    (a : α) (b : β) :
    List.zipWith f (List.replicate n a) (List.replicate n b) =
      List.replicate n (f a b) := by
  induction n with
  | zero => rfl
  | succ n ih => simp [List.replicate_succ, ih]

theorem zip_replicate_same {α β : Type} (n : ℕ) (a : α) (b : β) :
    (List.replicate n a).zip (List.replicate n b) = List.replicate n (a, b) := by
  induction n with
  | zero => rfl
  | succ n ih => simp [List.replicate_succ, ih]

theorem filter_replicate_of_pos {α : Type} (pred : α → Bool) (n : ℕ) (a : α)
    (h : pred a = true) :
    (List.replicate n a).filter pred = List.replicate n a := by
  induction n with
  | zero => rfl
  | succ n ih => simp [List.replicate_succ, List.filter_cons, h, ih]

theorem filter_replicate_of_neg {α : Type} (pred : α → Bool) (n : ℕ) (a : α)
    (h : pred a = false) :
    (List.replicate n a).filter pred = [] := by
  induction n with
  | zero => rfl
  | succ n ih => simp [List.replicate_succ, List.filter_cons, h, ih]

/-- With all random draws zero, one update stage maps a homogeneous
population (every price x, every accumulator w) to the homogeneous
population with the drifted price: every shock is zero, so the volatility
and accumulator increments vanish. -/
theorem updateStage_replicate_zero_draws (p y q alpha sigma dt tk : ℝ)
    (n : ℕ) (x w : ℝ) (d : ℕ) :
    updateStage p y q alpha sigma dt tk (fun _ => 0)
      ⟨List.replicate n x, List.replicate n w, d⟩ =
      List.replicate n (x + y * dt * x, w) := by
  simp only [updateStage, List.map_replicate, List.length_replicate,
    zero_mul, map_const_eq_replicate, List.length_range,
    zipWith_replicate_same, mul_zero, add_zero, zip_replicate_same]

theorem dayStep_replicate_kept (p y q alpha sigma dt thr tk : ℝ) (n : ℕ)
    (x w : ℝ) (d : ℕ) (h : ¬ x + y * dt * x < thr) :
    dayStep p y q alpha sigma dt thr tk (fun _ => 0)
      ⟨List.replicate n x, List.replicate n w, d⟩ =
      ⟨List.replicate n (x + y * dt * x), List.replicate n w, d⟩ := by
  have hpred : defaultPred thr (x + y * dt * x, w) = true := by
    simp only [defaultPred, Bool.not_eq_true', decide_eq_false_iff_not]
    exact h
  have hupd := updateStage_replicate_zero_draws p y q alpha sigma dt tk n x w d
  have hfil := filter_replicate_of_pos (defaultPred thr) n
    ((x + y * dt * x, w)) hpred
  refine simState_eq _ _ ?_ ?_ ?_
  · rw [dayStep_prices, hupd, hfil, List.map_replicate]
  · rw [dayStep_omega, hupd, hfil, List.map_replicate]
  · rw [dayStep_numDefaults, hupd, hfil, List.length_replicate]
    simp

theorem dayStep_replicate_removed (p y q alpha sigma dt thr tk : ℝ) (n : ℕ)
    (x w : ℝ) (d : ℕ) (h : x + y * dt * x < thr) :
    dayStep p y q alpha sigma dt thr tk (fun _ => 0)
      ⟨List.replicate n x, List.replicate n w, d⟩ = ⟨[], [], d + n⟩ := by
  have hpred : defaultPred thr (x + y * dt * x, w) = false := by
    simp only [defaultPred, Bool.not_eq_false']
    exact decide_eq_true h
  have hupd := updateStage_replicate_zero_draws p y q alpha sigma dt tk n x w d
  have hfil := filter_replicate_of_neg (defaultPred thr) n
    ((x + y * dt * x, w)) hpred
  refine simState_eq _ _ ?_ ?_ ?_
  · rw [dayStep_prices, hupd, hfil, List.map_nil]
  · rw [dayStep_omega, hupd, hfil, List.map_nil]
  · rw [dayStep_numDefaults, hupd, hfil, List.length_replicate]
    simp

/-- A day on an empty population is a no-op: no kernel input, no draws, no
removable path, and the counter is unchanged. -/
theorem dayStep_empty (p y q alpha sigma dt thr tk : ℝ) (z : ℕ → ℝ)
    (s : SimState) (hp : s.prices = []) (ho : s.omega = []) :
    dayStep p y q alpha sigma dt thr tk z s = s := by
  obtain ⟨pl, ol, d⟩ := s
  simp only at hp ho
  subst hp ho
  rfl

theorem runDays_empty (p y q alpha sigma dt thr : ℝ) (tgrid : ℕ → ℝ)
    (z : ℕ → ℕ → ℝ) (k n : ℕ) (s : SimState) (hp : s.prices = [])
    (ho : s.omega = []) :
    runDays p y q alpha sigma dt thr tgrid z k n s = s := by
  induction n generalizing k with
  | zero => rfl
  | succ n ih =>
    simp only [runDays, dayStep_empty p y q alpha sigma dt thr (tgrid k)
      (z k) s hp ho]
    exact ih (k + 1)

theorem runDays_add (p y q alpha sigma dt thr : ℝ) (tgrid : ℕ → ℝ)
    (z : ℕ → ℕ → ℝ) (k a b : ℕ) (s : SimState) :
    runDays p y q alpha sigma dt thr tgrid z k (a + b) s =
      runDays p y q alpha sigma dt thr tgrid z (k + a) b
        (runDays p y q alpha sigma dt thr tgrid z k a s) := by
  induction a generalizing k s with
  | zero =>
    rw [Nat.zero_add, Nat.add_zero]
    rfl
  | succ a ih =>
    rw [show a + 1 + b = (a + b) + 1 from by omega]
    simp only [runDays]
    rw [ih (k + 1), show k + 1 + a = k + (a + 1) from by omega]

/-- C5: if after some day j the default-removal step has emptied the
population, the remaining days change nothing (each remaining day is a
no-op on the empty population), and `q_alpha` returns the final,
well-defined probability num_defaults / 1000 frozen at day j. -/
theorem c5_empty_population_result_final (p y r q alpha sigma : ℝ) (t : ℕ)
    (z : ℕ → ℕ → ℝ) (j : ℕ) (hj : j ≤ 365 * t)
    (hempty : (qAlphaState p y r q alpha sigma t z j).prices = []) :
    qAlphaState p y r q alpha sigma t z (365 * t) =
      qAlphaState p y r q alpha sigma t z j ∧
    q_alpha p y r q alpha sigma t z =
      ((qAlphaState p y r q alpha sigma t z j).numDefaults : ℝ) / 1000 := by
  have hlen := (runDays_invariant p y q alpha sigma (simDt t) (r * p)
    (tgridEntry (simDt t)) z 0 j (initState p) (initState_invariant p).1).1
  have homega : (qAlphaState p y r q alpha sigma t z j).omega = [] := by
    have h0 : (qAlphaState p y r q alpha sigma t z j).prices.length = 0 := by
      rw [hempty]; rfl
    have h1 : (qAlphaState p y r q alpha sigma t z j).omega.length = 0 := by
      unfold qAlphaState at h0 ⊢
      omega
    exact List.length_eq_zero.mp h1
  have hstate : qAlphaState p y r q alpha sigma t z (365 * t) =
      qAlphaState p y r q alpha sigma t z j := by
    unfold qAlphaState
    rw [show 365 * t = j + (365 * t - j) from by omega]
    rw [runDays_add]
    exact runDays_empty p y q alpha sigma (simDt t) (r * p)
      (tgridEntry (simDt t)) z (0 + j) (365 * t - j) _ hempty homega
  exact ⟨hstate, by unfold q_alpha; rw [hstate]⟩

theorem c5_concrete_empty :
    (qAlphaState 1 0 2 2 1 1 1 (fun _ _ => 0) 1).prices = [] := by
  show (runDays 1 0 2 1 1 (simDt 1) (2 * 1) (tgridEntry (simDt 1))
    (fun _ _ => 0) 0 1 (initState 1)).prices = []
  simp only [runDays]
  rw [show (2 : ℝ) * 1 = 2 from by norm_num]
  rw [show initState 1 = ⟨List.replicate 1000 1, List.replicate 1000 0, 0⟩
    from rfl]
  rw [dayStep_replicate_removed 1 0 2 1 1 (simDt 1) 2
    (tgridEntry (simDt 1) 0) 1000 1 0 0 (by norm_num)]

/-- C5 witness: with initial price 1 and threshold 2 every path defaults on
day 1 of a 365-day horizon, and the returned value is the frozen
probability. -/
theorem c5_empty_population_result_final_witness :
    1 ≤ 365 * 1 ∧
    (qAlphaState 1 0 2 2 1 1 1 (fun _ _ => 0) 1).prices = [] ∧
    q_alpha 1 0 2 2 1 1 1 (fun _ _ => 0) =
      ((qAlphaState 1 0 2 2 1 1 1 (fun _ _ => 0) 1).numDefaults : ℝ) / 1000 :=
  ⟨by norm_num, c5_concrete_empty,
    (c5_empty_population_result_final 1 0 2 2 1 1 1 (fun _ _ => 0) 1
      (by norm_num) c5_concrete_empty).2⟩

theorem runDays_const_one_fix (q alpha sigma dt thr : ℝ) (tgrid : ℕ → ℝ)
    (hthr : ¬ (1 : ℝ) < thr) (k n : ℕ) :
    runDays 1 0 q alpha sigma dt thr tgrid (fun _ _ => 0) k n (initState 1) =
      initState 1 := by
  induction n generalizing k with
  | zero => rfl
  | succ n ih =>
    have hd := dayStep_replicate_kept 1 0 q alpha sigma dt thr (tgrid k)
      1000 1 0 0 (by simpa using hthr)
    have hd' : dayStep 1 0 q alpha sigma dt thr (tgrid k) (fun _ => 0)
        (initState 1) = initState 1 := by
      rw [show initState 1 =
        (⟨List.replicate 1000 1, List.replicate 1000 0, 0⟩ : SimState)
        from rfl, hd]
      norm_num
    simp only [runDays, hd']
    exact ih (k + 1)

theorem q_alpha_runs_with_any_sigma (q alpha sigma : ℝ) (t : ℕ) :
    q_alpha 1 0 0 q alpha sigma t (fun _ _ => 0) = 0 := by
  unfold q_alpha qAlphaState
  rw [show (0 : ℝ) * 1 = 0 from by norm_num]
  rw [runDays_const_one_fix q alpha sigma (simDt t) 0 (tgridEntry (simDt t))
    (by norm_num) 0 (365 * t)]
  show ((initState 1).numDefaults : ℝ) / 1000 = 0
  norm_num [initState]

/-- Embedding of the only precondition validation in the program: `main`
(bond_default_analysis.py, lines 188-190) prints a message and exits before
the sensitivity sweep exactly when `q <= 1`. Neither `main` nor `q_alpha`
checks kurtosis_q == 3, sigma, the initial price, or the horizon. -/
noncomputable def mainRejects (q : ℝ) : Bool := decide (q ≤ 1)

/-- C6 counterexample: kurtosis_q = 3 passes the program's only
precondition check, and an invocation with non-positive sigma = -1 (all
other parameters valid: p = 1 > 0, q = 2 > 1, horizon 1 year) does not
fail before the simulation: `q_alpha` runs the full day loop and returns
the probability 0. -/
theorem c6_counterexample_no_fail_fast :
    mainRejects 3 = false ∧ q_alpha 1 0 0 2 1 (-1) 1 (fun _ _ => 0) = 0 := by
  constructor
  · simp only [mainRejects, decide_eq_false_iff_not]
    norm_num
  · exact q_alpha_runs_with_any_sigma 2 1 (-1) 1

/-- C6 amended: the only precondition enforced anywhere in the program is
kurtosis_q ≤ 1, rejected by the CLI entry point `main` before the sweep
starts; `q_alpha` itself performs no validation, and in particular with
non-positive sigma it runs the day loop to completion and returns a
probability in [0, 1] instead of failing. -/
theorem c6_amended_only_low_q_checked (q p y r alpha sigma : ℝ) (t : ℕ)
    (z : ℕ → ℕ → ℝ) (hsigma : sigma ≤ 0) :
    (mainRejects q = true ↔ q ≤ 1) ∧
    0 ≤ q_alpha p y r q alpha sigma t z ∧
    q_alpha p y r q alpha sigma t z ≤ 1 := by
  refine ⟨?_, (q_alpha_bounds p y r q alpha sigma t z).2⟩
  simp [mainRejects]

/-- C6 amended witness at q = 3, sigma = -1: the q = 3 call is not
rejected and still returns a probability in the unit interval. -/
theorem c6_amended_only_low_q_checked_witness :
    (-1 : ℝ) ≤ 0 ∧
    ((mainRejects 3 = true ↔ (3 : ℝ) ≤ 1) ∧
      0 ≤ q_alpha 1 0 0 3 1 (-1) 1 (fun _ _ => 0) ∧
      q_alpha 1 0 0 3 1 (-1) 1 (fun _ _ => 0) ≤ 1) :=
  ⟨by norm_num,
    c6_amended_only_low_q_checked 3 1 0 0 1 (-1) 1 (fun _ _ => 0)
      (by norm_num)⟩

theorem simDt_eq_one_div (t : ℕ) (ht : 1 ≤ t) : simDt t = 1 / 365 := by
  unfold simDt
  have h365 : ((365 * t : ℕ) : ℝ) = 365 * (t : ℝ) := by push_cast; ring
  have ht0 : (t : ℝ) ≠ 0 := Nat.cast_ne_zero.mpr (by omega)
  rw [h365]
  field_simp
  ring

/-- C8: for every horizon t ≥ 1, `q_alpha` uses days = 365 * t steps of
size dt = t / days; the arange elapsed-time grid dt, 2 dt, ... has
365 * t + 364 entries, hence at least `days`; entry k equals (k + 1) * dt;
and day k of the loop feeds the kernel and sigma_factor evaluation the
k-th grid entry, starting from one step size. -/
theorem c8_time_discretization (t : ℕ) (ht : 1 ≤ t) :
    simDt t = (t : ℝ) / ((365 * t : ℕ) : ℝ) ∧
    tgridLen t (simDt t) = 365 * t + 364 ∧
    365 * t ≤ tgridLen t (simDt t) ∧
    (∀ k : ℕ, tgridEntry (simDt t) k = ((k : ℝ) + 1) * simDt t) ∧
    (∀ (p y q alpha sigma thr : ℝ) (z : ℕ → ℕ → ℝ) (k n : ℕ) (s : SimState),
      runDays p y q alpha sigma (simDt t) thr (tgridEntry (simDt t)) z k
          (n + 1) s =
        runDays p y q alpha sigma (simDt t) thr (tgridEntry (simDt t)) z
          (k + 1) n
          (dayStep p y q alpha sigma (simDt t) thr (tgridEntry (simDt t) k)
            (z k) s)) := by
  have hlen : tgridLen t (simDt t) = 365 * t + 364 := by
    rw [simDt_eq_one_div t ht]
    unfold tgridLen
    have hcast : ((t : ℝ) + 1 - 1 / 365) / (1 / 365) =
        ((365 * t + 364 : ℕ) : ℝ) := by
      push_cast
      field_simp
      ring
    rw [hcast, Nat.ceil_natCast]
  refine ⟨rfl, hlen, by omega, fun k => by unfold tgridEntry; ring,
    fun p y q alpha sigma thr z k n s => rfl⟩

/-- C8 witness at t = 1: the grid has 729 = 365 + 364 ≥ 365 entries and
entry 4 is the fifth multiple of dt. -/
theorem c8_time_discretization_witness :
    1 ≤ 1 ∧ tgridLen 1 (simDt 1) = 729 ∧
    tgridEntry (simDt 1) 4 = ((4 : ℝ) + 1) * simDt 1 :=
  ⟨le_refl 1,
    ((c8_time_discretization 1 (le_refl 1)).2.1).trans (by norm_num),
    (c8_time_discretization 1 (le_refl 1)).2.2.2.1 4⟩

/-- The specification's per-path price update (§4.2 steps 2, 3, 4, 5) in
the spec's order and grouping: drift first, then the CEV volatility
`vol_i = sigma_factor * initial_price^(1-alpha) * price_i^alpha` applied as
`price_i += vol_i * kernel_value_i^((1-q)/2) * shock_i` with
`shock_i = z_i * sqrt(dt)`. -/
noncomputable def specNewPrice (p y q alpha sigma dt tk x w zi : ℝ) : ℝ :=
  let price_after_drift := x + y * dt * x
  let vol := sigma * tk ^ ((1 - q) / (2 * (3 - q))) * p ^ (1 - alpha) *
    price_after_drift ^ alpha
  price_after_drift +
    vol * closed_form_price w tk q ^ ((1 - q) / 2) * (zi * Real.sqrt dt)

/-- The specification's per-path noise-accumulator update (§4.2 step 6):
`noise_accum_i += kernel_value_i^((1-q)/2) * shock_i`. -/
noncomputable def specNewNoise (q dt tk x w zi : ℝ) : ℝ :=
  w + closed_form_price w tk q ^ ((1 - q) / 2) * (zi * Real.sqrt dt)

/-- One simulated day exactly as the specification (§4.2) words it: for
every live path i, apply drift, then volatility, then the accumulator
update, and only after these updates run the default check on the values
computed that day, removing the marked paths from both arrays. -/
noncomputable def specDayStep (p y q alpha sigma dt thr tk : ℝ) (z : ℕ → ℝ)
    (s : SimState) : SimState :=
  let pairs := (List.range s.prices.length).map fun i =>
    (specNewPrice p y q alpha sigma dt tk (s.prices.getD i 0)
        (s.omega.getD i 0) (z i),
      specNewNoise q dt tk (s.prices.getD i 0) (s.omega.getD i 0) (z i))
  let kept := pairs.filter (defaultPred thr)
  { prices := kept.map Prod.fst
    omega := kept.map Prod.snd
    numDefaults := s.numDefaults + (pairs.length - kept.length) }

/-- C4: on every simulated day, for every live path, the implementation's
day step applies the updates in the specification's order and with the
specification's formulas (drift, then volatility with the kernel weight
and shock, then the noise accumulator), and only afterwards applies the
default check to the values computed that day. -/
theorem c4_day_update_matches_spec (p y q alpha sigma dt thr tk : ℝ)
    (z : ℕ → ℝ) (s : SimState) (h : s.prices.length = s.omega.length) :
    dayStep p y q alpha sigma dt thr tk z s =
      specDayStep p y q alpha sigma dt thr tk z s := by
  have hpairs : updateStage p y q alpha sigma dt tk z s =
      (List.range s.prices.length).map fun i =>
        (specNewPrice p y q alpha sigma dt tk (s.prices.getD i 0)
            (s.omega.getD i 0) (z i),
          specNewNoise q dt tk (s.prices.getD i 0) (s.omega.getD i 0)
            (z i)) := by
    apply List.ext_getElem
    · rw [length_updateStage, ← h, min_self, List.length_map,
        List.length_range]
    · intro i h1 h2
      have hi : i < s.prices.length := by
        rw [length_updateStage, ← h, min_self] at h1
        exact h1
      have hio : i < s.omega.length := h ▸ hi
      simp only [updateStage, List.getElem_zip, List.getElem_zipWith,
        List.getElem_map, List.getElem_range, specNewPrice, specNewNoise]
      rw [List.getD_eq_getElem s.prices 0 hi,
        List.getD_eq_getElem s.omega 0 hio, Real.sqrt_eq_rpow,
        show (1 / 2 : ℝ) = (0.5 : ℝ) from by norm_num, Prod.mk.injEq]
      constructor
      · ring
      · ring
  unfold dayStep specDayStep
  rw [hpairs]

/-- C4 witness at the empty population (index-aligned by definition). -/
theorem c4_day_update_matches_spec_witness :
    ((⟨[], [], 0⟩ : SimState).prices.length =
      (⟨[], [], 0⟩ : SimState).omega.length) ∧
    dayStep 1 0 2 1 1 1 0 1 (fun _ => 0) ⟨[], [], 0⟩ =
      specDayStep 1 0 2 1 1 1 0 1 (fun _ => 0) ⟨[], [], 0⟩ :=
  ⟨rfl, c4_day_update_matches_spec 1 0 2 1 1 1 0 1 (fun _ => 0) ⟨[], [], 0⟩
    rfl⟩

/-- Entry k of the recovery-rate grid `np.arange(0.1, 0.9, 0.05)`
(bond_default_analysis.py, line 138). -/
noncomputable def rateEntry (k : ℕ) : ℝ := 0.1 + (k : ℝ) * 0.05

/-- Number of entries of `np.arange(0.1, 0.9, 0.05)` over exact reals. -/
noncomputable def ratesLen : ℕ := Nat.ceil (((0.9 : ℝ) - 0.1) / 0.05)

/-- Pointwise write `rate_sens[i, r] = v` into the result matrix
(line 149), modelled as a function update. -/
def setEntry (m : ℕ → ℕ → ℝ) (i r : ℕ) (v : ℝ) : ℕ → ℕ → ℝ :=
  fun a b => if a = i ∧ b = r then v else m a b

/-- Embedding of `sensitivity` (bond_default_analysis.py, lines 118-153):
starting from the zero matrix `np.zeros((data.shape[0], rates.shape[0]))`,
loop over the recovery-rate index r (outer loop) and the bond row index i
(inner loop), call `q_alpha` once per (r, i) pair with the row's first
column as the price and its second column divided by 100 as the yield, and
store the result at position [i, r]. `z rI i` is the stream of random
draws consumed by the call for pair (rI, i). -/
noncomputable def sensitivity (data : List (ℝ × ℝ)) (q alpha sigma : ℝ)
    (t : ℕ) (z : ℕ → ℕ → ℕ → ℕ → ℝ) : ℕ → ℕ → ℝ :=
  (List.range ratesLen).foldl
    (fun m rI =>
      (List.range data.length).foldl
        (fun m2 i =>
          setEntry m2 i rI
            (q_alpha (data.getD i (0, 0)).1 ((data.getD i (0, 0)).2 / 100)
              (rateEntry rI) q alpha sigma t (z rI i)))
        m)
    (fun _ _ => 0)

theorem inner_foldl_preserve (rI : ℕ) (f : ℕ → ℝ) (l : List ℕ)
    (m : ℕ → ℕ → ℝ) (a b : ℕ) (hab : a ∉ l ∨ b ≠ rI) :
    (l.foldl (fun m2 i => setEntry m2 i rI (f i)) m) a b = m a b := by
  induction l generalizing m with
  | nil => rfl
  | cons j l2 ih =>
    have hab2 : a ∉ l2 ∨ b ≠ rI := by
      rcases hab with h1 | h2
      · exact Or.inl fun hmem => h1 (List.mem_cons_of_mem j hmem)
      · exact Or.inr h2
    rw [List.foldl_cons, ih _ hab2]
    have hcond : ¬ (a = j ∧ b = rI) := by
      rintro ⟨rfl, rfl⟩
      rcases hab with h1 | h2
      · exact h1 (List.mem_cons_self _ _)
      · exact h2 rfl
    simp [setEntry, hcond]

theorem inner_foldl_write (rI : ℕ) (f : ℕ → ℝ) (l : List ℕ)
    (m : ℕ → ℕ → ℝ) (a : ℕ) (ha : a ∈ l) (hnd : l.Nodup) :
    (l.foldl (fun m2 i => setEntry m2 i rI (f i)) m) a rI = f a := by
  induction l generalizing m with
  | nil => cases ha
  | cons j l2 ih =>
    rw [List.foldl_cons]
    rcases List.mem_cons.mp ha with rfl | hmem
    · have hnotin : a ∉ l2 := (List.nodup_cons.mp hnd).1
      rw [inner_foldl_preserve rI f l2 _ a rI (Or.inl hnotin)]
      simp [setEntry]
    · exact ih _ hmem (List.nodup_cons.mp hnd).2

theorem outer_foldl_preserve (b : ℕ) (g : ℕ → ℕ → ℝ) (L : List ℕ)
    (m : ℕ → ℕ → ℝ) (a r : ℕ) (hr : r ∉ L) :
    (L.foldl (fun m2 rI => (List.range b).foldl
      (fun m3 i => setEntry m3 i rI (g rI i)) m2) m) a r = m a r := by
  induction L generalizing m with
  | nil => rfl
  | cons r0 L2 ih =>
    rw [List.foldl_cons, ih _ fun hm => hr (List.mem_cons_of_mem r0 hm)]
    exact inner_foldl_preserve r0 (g r0) (List.range b) m a r
      (Or.inr fun hrr => hr (hrr ▸ List.mem_cons_self r0 L2))

theorem outer_foldl_write (b : ℕ) (g : ℕ → ℕ → ℝ) (L : List ℕ)
    (m : ℕ → ℕ → ℝ) (a r : ℕ) (ha : a < b) (hr : r ∈ L) (hnd : L.Nodup) :
    (L.foldl (fun m2 rI => (List.range b).foldl
      (fun m3 i => setEntry m3 i rI (g rI i)) m2) m) a r = g r a := by
  induction L generalizing m with
  | nil => cases hr
  | cons r0 L2 ih =>
    rw [List.foldl_cons]
    rcases List.mem_cons.mp hr with rfl | hmem
    · rw [outer_foldl_preserve b g L2 _ a r (List.nodup_cons.mp hnd).1]
      exact inner_foldl_write r (g r) (List.range b) _ a
        (List.mem_range.mpr ha) (List.nodup_range b)
    · exact ih _ hmem (List.nodup_cons.mp hnd).2

theorem ratesLen_eq : ratesLen = 16 := by
  unfold ratesLen
  rw [show ((0.9 : ℝ) - 0.1) / 0.05 = ((16 : ℕ) : ℝ) from by norm_num,
    Nat.ceil_natCast]

/-- C7: the sensitivity sweep has a 16-entry recovery-rate grid
0.10, 0.15, ..., 0.85 (0.05 increments), and for every bond row i and rate
index r of the (number of bonds) × 16 result matrix, entry [i, r] is
exactly one `q_alpha` call on the row's first column as price, its second
column divided by 100 as yield, and the r-th recovery rate. -/
theorem c7_sensitivity_calls (data : List (ℝ × ℝ)) (q alpha sigma : ℝ)
    (t : ℕ) (z : ℕ → ℕ → ℕ → ℕ → ℝ) (i r : ℕ) (hi : i < data.length)
    (hr : r < ratesLen) :
    ratesLen = 16 ∧
    rateEntry r = 0.1 + (r : ℝ) * 0.05 ∧
    0.1 ≤ rateEntry r ∧ rateEntry r ≤ 0.85 ∧
    sensitivity data q alpha sigma t z i r =
      q_alpha (data.getD i (0, 0)).1 ((data.getD i (0, 0)).2 / 100)
        (rateEntry r) q alpha sigma t (z r i) := by
  have hr15 : (r : ℝ) ≤ 15 := by
    have : r ≤ 15 := by
      have h16 := ratesLen_eq
      omega
    exact_mod_cast this
  have hr0 : (0 : ℝ) ≤ (r : ℝ) := Nat.cast_nonneg r
  refine ⟨ratesLen_eq, rfl, ?_, ?_, ?_⟩
  · unfold rateEntry
    nlinarith
  · unfold rateEntry
    nlinarith
  · unfold sensitivity
    exact outer_foldl_write data.length
      (fun rI i2 =>
        q_alpha (data.getD i2 (0, 0)).1 ((data.getD i2 (0, 0)).2 / 100)
          (rateEntry rI) q alpha sigma t (z rI i2))
      (List.range ratesLen) (fun _ _ => 0) i r hi (List.mem_range.mpr hr)
      (List.nodup_range ratesLen)

/-- C7 witness: a one-bond data set, the first rate index. -/
theorem c7_sensitivity_calls_witness :
    0 < [((80 : ℝ), (500 : ℝ))].length ∧ 0 < ratesLen ∧
    sensitivity [((80 : ℝ), (500 : ℝ))] 2 1 1 1 (fun _ _ _ _ => 0) 0 0 =
      q_alpha ([((80 : ℝ), (500 : ℝ))].getD 0 (0, 0)).1
        (([((80 : ℝ), (500 : ℝ))].getD 0 (0, 0)).2 / 100) (rateEntry 0) 2 1 1
        1 ((fun _ _ => fun _ _ => (0 : ℝ)) 0 0) :=
  ⟨by norm_num, by rw [ratesLen_eq]; norm_num,
    (c7_sensitivity_calls [((80 : ℝ), (500 : ℝ))] 2 1 1 1 (fun _ _ _ _ => 0)
      0 0 (by norm_num) (by rw [ratesLen_eq]; norm_num)).2.2.2.2⟩

end BondDefault
